import Mathlib

/-!
Shallow embedding of the eurochef EDB decoder components: the entity
extractor's mesh assembly loop (`src/eurochef/src/edb/entities.rs`),
the map graph assembler (`src/eurochef/gui/src/maps.rs`), the renderer's
strip ordering (`src/eurochef/gui/src/render/entity.rs`), and the ANSI
stripper (`src/eurochef/gui/src/panic_dialog.rs`).

Machine integers are modelled as `Nat` (unsigned) and `Int` (signed);
`f32` fields are carried as raw 32-bit words, since the decoder only
moves them verbatim. Rust panics (`unwrap`, out-of-bounds indexing) are
modelled as `Option.none` / `Except.error` results.
-/

namespace Eurochef

/-! ### ANSI stripping, from `panic_dialog.rs` (`strip_ansi_codes`) -/

/-- The ESC character `\x1B` tested by `strip_ansi_codes`. -/
def escChar : Char := Char.ofNat 27

/-- State machine body of `strip_ansi_codes`: the `Bool` is the
`in_escape` flag; `isAlpha` abstracts Rust's `char::is_alphabetic`. -/
def stripAnsiGo (isAlpha : Char → Bool) : Bool → List Char → List Char
  | _, [] => []
  | true, c :: cs =>
    if isAlpha c then stripAnsiGo isAlpha false cs else stripAnsiGo isAlpha true cs
  | false, c :: cs =>
    if c = escChar then stripAnsiGo isAlpha true cs else c :: stripAnsiGo isAlpha false cs

/-- `strip_ansi_codes` from `panic_dialog.rs`: starts outside an escape. -/
def stripAnsiCodes (isAlpha : Char → Bool) (s : List Char) : List Char :=
  stripAnsiGo isAlpha false s

/-- Drops the remainder of an escape run: everything up to and including
the first alphabetic character. Written from the claim's wording. -/
def stripSpecDrop (isAlpha : Char → Bool) : List Char → List Char
  | [] => []
  | c :: cs => if isAlpha c then cs else stripSpecDrop isAlpha cs

theorem stripSpecDrop_length_le (a : Char → Bool) :
    ∀ l : List Char, (stripSpecDrop a l).length ≤ l.length := by
  intro l
  induction l with
  | nil => simp [stripSpecDrop]
  | cons c cs ih =>
    simp only [stripSpecDrop]
    split
    · simp
    · exact Nat.le_trans ih (Nat.le_succ _)

/-- Specification-side stripper, written from the claim's wording: a run
starts at an ESC and ends at the first alphabetic character after it;
characters outside runs are kept in order, characters inside are dropped. -/
def stripSpecFn (isAlpha : Char → Bool) : List Char → List Char
  | [] => []
  | c :: cs =>
    if c = escChar then stripSpecFn isAlpha (stripSpecDrop isAlpha cs)
    else c :: stripSpecFn isAlpha cs
termination_by l => l.length
decreasing_by
  · have := stripSpecDrop_length_le isAlpha cs
    simp only [List.length_cons]
    omega
  · simp

theorem stripAnsiGo_eq_aux (a : Char → Bool) :
    ∀ n (cs : List Char), cs.length ≤ n →
      stripAnsiGo a false cs = stripSpecFn a cs ∧
      stripAnsiGo a true cs = stripSpecFn a (stripSpecDrop a cs) := by
  intro n
  induction n with
  | zero =>
    intro cs h
    have : cs = [] := List.eq_nil_of_length_eq_zero (Nat.le_zero.mp h)
    subst this
    simp [stripAnsiGo, stripSpecFn, stripSpecDrop]
  | succ n ih =>
    intro cs h
    match cs with
    | [] => simp [stripAnsiGo, stripSpecFn, stripSpecDrop]
    | c :: cs' =>
      have hlen : cs'.length ≤ n := by
        simp only [List.length_cons] at h
        omega
      obtain ⟨ihf, iht⟩ := ih cs' hlen
      constructor
      · simp only [stripAnsiGo, stripSpecFn]
        by_cases hc : c = escChar
        · simp only [hc, if_pos rfl]
          exact iht
        · simp only [if_neg hc, ihf]
      · simp only [stripAnsiGo, stripSpecDrop]
        by_cases hc : a c
        · simp only [if_pos hc, ihf]
        · simp only [hc, if_neg, Bool.false_eq_true, not_false_iff, iht]

theorem escChar_not_mem_stripAnsiGo (a : Char → Bool) :
    ∀ (cs : List Char) (b : Bool), escChar ∉ stripAnsiGo a b cs := by
  intro cs
  induction cs with
  | nil => intro b; simp [stripAnsiGo]
  | cons c cs' ih =>
    intro b
    cases b with
    | true =>
      simp only [stripAnsiGo]
      split
      · exact ih false
      · exact ih true
    | false =>
      simp only [stripAnsiGo]
      by_cases hc : c = escChar
      · simp only [if_pos hc]
        exact ih true
      · simp only [if_neg hc]
        intro hmem
        rcases List.mem_cons.mp hmem with h | h
        · exact hc h.symm
        · exact ih false h

/-- C10: `strip_ansi_codes` returns a string with no ESC character, and
it equals the specification stripper: characters outside escape runs
(a run starts at an ESC and ends at the first alphabetic character after
it) are kept in their original order, characters inside runs are dropped. -/
theorem stripAnsiCodes_spec (isAlpha : Char → Bool) (s : List Char) :
    escChar ∉ stripAnsiCodes isAlpha s ∧
      stripAnsiCodes isAlpha s = stripSpecFn isAlpha s := by
  constructor
  · exact escChar_not_mem_stripAnsiGo isAlpha s false
  · exact (stripAnsiGo_eq_aux isAlpha s.length s (Nat.le_refl _)).1

/-! ### Trigger assembly, from `maps.rs` (`read_from_file`, trigger loop) -/

/-- One entry of `xmap.trigger_header.trigger_types`. -/
structure TriggerType where
  trig_type : Nat
  trig_subtype : Nat
deriving DecidableEq

/-- The raw trigger record `t.trigger` inside a trigger wrapper. `f32`
vectors are carried as raw 32-bit word triples. -/
structure RawTrigger where
  type_index : Nat
  debug : Nat
  game_flags : Nat
  trig_flags : Nat
  position : Nat × Nat × Nat
  rotation : Nat × Nat × Nat
  scale : Nat × Nat × Nat
  data : List (Option Nat)
  links : List Int
  engine_data : List (Option Nat)
deriving DecidableEq

/-- One element of `xmap.trigger_header.triggers`: a wrapper pairing
`link_ref` with the raw trigger. -/
structure TrigWrapper where
  link_ref : Int
  trigger : RawTrigger
deriving DecidableEq

/-- `ProcessedTrigger` from `maps.rs`. -/
structure ProcessedTrigger where
  link_ref : Int
  ttype : Nat
  tsubtype : Option Nat
  debug : Nat
  game_flags : Nat
  trig_flags : Nat
  position : Nat × Nat × Nat
  rotation : Nat × Nat × Nat
  scale : Nat × Nat × Nat
  data : List (Option Nat)
  links : List Int
  engine_data : List (Option Nat)
  incoming_links : List Int
deriving DecidableEq

instance : Inhabited ProcessedTrigger :=
  ⟨{ link_ref := 0, ttype := 0, tsubtype := none, debug := 0, game_flags := 0,
     trig_flags := 0, position := (0, 0, 0), rotation := (0, 0, 0),
     scale := (0, 0, 0), data := [], links := [], engine_data := [],
     incoming_links := [] }⟩

/-- The per-trigger assembly of `read_from_file`: resolves
`trigger_types[trig.type_index]` (an out-of-bounds index panics, modelled
as `none`) and folds the raw subtype, `0` and `0x42000001` becoming
`None`. -/
def assembleTrigger (trigger_types : List TriggerType) (t : TrigWrapper) :
    Option ProcessedTrigger :=
  if h : t.trigger.type_index < trigger_types.length then
    let ty := trigger_types.get ⟨t.trigger.type_index, h⟩
    some
      { link_ref := t.link_ref
        ttype := ty.trig_type
        tsubtype :=
          if ty.trig_subtype ≠ 0 ∧ ty.trig_subtype ≠ 0x42000001 then
            some ty.trig_subtype
          else none
        debug := t.trigger.debug
        game_flags := t.trigger.game_flags
        trig_flags := t.trigger.trig_flags
        position := t.trigger.position
        rotation := t.trigger.rotation
        scale := t.trigger.scale
        data := t.trigger.data
        links := t.trigger.links
        engine_data := t.trigger.engine_data
        incoming_links := [] }
  else none

/-- C7: the assembled trigger's `tsubtype` is `none` iff the raw subtype
read from `trigger_types[type_index]` is `0` or `0x42000001`; otherwise
it is `some` of the raw value. -/
theorem tsubtype_folding (trigger_types : List TriggerType) (t : TrigWrapper)
    (h : t.trigger.type_index < trigger_types.length) :
    ∃ pt, assembleTrigger trigger_types t = some pt ∧
      ((pt.tsubtype = none ↔
          (trigger_types.get ⟨t.trigger.type_index, h⟩).trig_subtype = 0 ∨
          (trigger_types.get ⟨t.trigger.type_index, h⟩).trig_subtype = 0x42000001) ∧
        (∀ v, pt.tsubtype = some v →
          v = (trigger_types.get ⟨t.trigger.type_index, h⟩).trig_subtype)) := by
  simp only [assembleTrigger]
  rw [dif_pos h]
  simp only [List.get_eq_getElem]
  refine ⟨_, rfl, ?_, ?_⟩
  · by_cases h0 : trigger_types[t.trigger.type_index].trig_subtype = 0
    · simp [h0]
    · by_cases h1 : trigger_types[t.trigger.type_index].trig_subtype = 0x42000001
      · simp [h1]
      · simp [h0, h1]
  · intro v hv
    by_cases h0 : trigger_types[t.trigger.type_index].trig_subtype = 0
    · simp [h0] at hv
    · by_cases h1 : trigger_types[t.trigger.type_index].trig_subtype = 0x42000001
      · simp [h1] at hv
      · simp [h0, h1] at hv
        exact hv.symm

/-- Concrete instantiation of `tsubtype_folding`. -/
theorem tsubtype_folding_witness :
    ∃ pt,
      assembleTrigger [⟨7, 0⟩, ⟨9, 5⟩]
          ⟨0, { type_index := 1, debug := 0, game_flags := 0, trig_flags := 0,
                position := (0, 0, 0), rotation := (0, 0, 0), scale := (0, 0, 0),
                data := [], links := [], engine_data := [] }⟩ = some pt ∧
        ((pt.tsubtype = none ↔ (5 : Nat) = 0 ∨ (5 : Nat) = 0x42000001) ∧
          (∀ v, pt.tsubtype = some v → v = 5)) := by
  have h :=
    tsubtype_folding [⟨7, 0⟩, ⟨9, 5⟩]
      ⟨0, { type_index := 1, debug := 0, game_flags := 0, trig_flags := 0,
            position := (0, 0, 0), rotation := (0, 0, 0), scale := (0, 0, 0),
            data := [], links := [], engine_data := [] }⟩ (by decide)
  simpa using h

/-! ### Extractor entity loop, from `edb/entities.rs` (`execute_command`)

The loop `for e in header.entity_list.data.iter()` seeks to each entry
and reads an `EXGeoBaseEntity`; the read result is propagated with `?`
(`.context("Failed to read entity")?`). Each entry's decode outcome is
modelled as an `Except`; the loop is the fold of `?` over them. -/

/-- The extractor's entity-section loop: `?` aborts at the first failing
record, so the whole command returns that record's error; the processed
records before it are returned on success. -/
def extractEntities {α : Type} : List (Except String α) → Except String (List α)
  | [] => Except.ok []
  | r :: rest =>
    match r with
    | Except.error e => Except.error e
    | Except.ok a =>
      match extractEntities rest with
      | Except.error e => Except.error e
      | Except.ok as => Except.ok (a :: as)

/-- Counterexample to C5: in the extractor, one bad record aborts the
entire section with that record's error; the following good record is
never surfaced as a per-record result. -/
theorem extractor_abort_counterexample :
    extractEntities [Except.ok (1 : Nat), Except.error "Failed to read entity",
        Except.ok 2] = Except.error "Failed to read entity" ∧
      ∀ l : List Nat,
        extractEntities [Except.ok 1, Except.error "Failed to read entity",
            Except.ok 2] ≠ Except.ok l := by
  constructor
  · rfl
  · intro l hl
    simp [extractEntities] at hl

/-- C5 amended: in the extractor's entity loop, when every record of a
prefix decodes, the first failing record aborts the whole section with
its error; and the section succeeds exactly when every record decodes,
in which case all records are returned in order. -/
theorem extractor_abort_at_first_error :
    (∀ (pre rest : List (Except String Nat)) (e : String),
        (∀ r ∈ pre, ∃ a, r = Except.ok a) →
        extractEntities (pre ++ Except.error e :: rest) = Except.error e) ∧
      ∀ l : List Nat, extractEntities (l.map Except.ok) = Except.ok l := by
  constructor
  · intro pre rest e hp
    induction pre with
    | nil => simp [extractEntities]
    | cons r pre' ih =>
      obtain ⟨a, ha⟩ := hp r (List.mem_cons_self r pre')
      subst ha
      have := ih fun r hr => hp r (List.mem_cons_of_mem _ hr)
      simp [extractEntities, this]
  · intro l
    induction l with
    | nil => rfl
    | cons a l' ih => simp [extractEntities, ih]

/-- Concrete instantiation of `extractor_abort_at_first_error`. -/
theorem extractor_abort_witness :
    extractEntities [Except.ok (7 : Nat), Except.error "bad", Except.ok 8] =
      Except.error "bad" := by
  have h := extractor_abort_at_first_error.1 [Except.ok 7] [Except.ok 8] "bad"
    (by intro r hr; simp at hr; exact ⟨7, hr⟩)
  simpa using h

/-! ### Map zone decoding, from `maps.rs` (`read_from_file`, zone loop)

For each zone the decoder seeks to
`header.refpointer_list[z.entity_refptr].address` and reads an
`EXGeoEntity` with `.unwrap()`: a failed read panics (modelled `none`),
and only a decoded non-`MapZone` variant is warned about and skipped. -/

/-- Payload of the `EXGeoEntity::MapZone` variant (only the field the
map viewer consumes is modelled). -/
structure MapZoneData where
  entity_refptr : Nat
deriving DecidableEq

/-- A decoded `EXGeoEntity`, collapsed to the distinction the zone loop
makes: the `MapZone` variant versus every other variant. -/
inductive GeoEntity where
  | mapZone (z : MapZoneData)
  | other (tag : Nat)
deriving DecidableEq

/-- A zone record of `map.zones`. -/
structure Zone where
  entity_refptr : Nat
deriving DecidableEq

/-- The zone loop of `read_from_file`. `refptrs` is the refpointer
table's address column; `file` maps an address to the decode result of
the entity found there. An out-of-range `entity_refptr` or a failed
decode panics (`none`); a decoded `MapZone` payload is appended; any
other variant is warned about and skipped. -/
def processZones (refptrs : List Nat) (file : Nat → Except String GeoEntity) :
    List Zone → Option (List MapZoneData)
  | [] => some []
  | z :: rest =>
    if h : z.entity_refptr < refptrs.length then
      match file (refptrs.get ⟨z.entity_refptr, h⟩) with
      | Except.error _ => none
      | Except.ok (GeoEntity.mapZone mz) =>
        (processZones refptrs file rest).map (mz :: ·)
      | Except.ok (GeoEntity.other _) => processZones refptrs file rest
    else none

/-- Counterexample to C4: a failed decode for one zone does fail the
map — the zone loop panics (no map is produced), even though another
zone of the same map decoded fine. -/
theorem mapzone_decode_failure_fails_map :
    processZones [0, 4]
        (fun a => if a = 0 then Except.ok (GeoEntity.mapZone ⟨3⟩)
                  else Except.error "read failed")
        [⟨0⟩, ⟨1⟩] = none := by
  rfl

/-- C4 amended: when every zone's refpointer index is in range and every
referenced entity decodes, the map is produced, and its
`mapzone_entities` are exactly the payloads of the zones whose entity
decoded as the `MapZone` variant, in zone order; decoded non-`MapZone`
entities are skipped without failing the map. A failed decode (or an
out-of-range refpointer) panics and fails the whole map. -/
theorem mapzone_filter_of_ok (refptrs : List Nat)
    (file : Nat → Except String GeoEntity) (zones : List Zone)
    (hidx : ∀ z ∈ zones, z.entity_refptr < refptrs.length)
    (hok : ∀ z ∈ zones, (file (refptrs.getD z.entity_refptr 0)).isOk) :
    processZones refptrs file zones =
      some (zones.filterMap fun z =>
        match file (refptrs.getD z.entity_refptr 0) with
        | Except.ok (GeoEntity.mapZone mz) => some mz
        | _ => none) := by
  induction zones with
  | nil => rfl
  | cons z rest ih =>
    have hz : z.entity_refptr < refptrs.length := hidx z (List.mem_cons_self z rest)
    have hzok := hok z (List.mem_cons_self z rest)
    have hget : refptrs.get ⟨z.entity_refptr, hz⟩ = refptrs.getD z.entity_refptr 0 := by
      rw [List.getD_eq_getElem refptrs 0 hz]
      simp
    have ihr := ih (fun z hz => hidx z (List.mem_cons_of_mem _ hz))
      (fun z hz => hok z (List.mem_cons_of_mem _ hz))
    simp only [processZones, dif_pos hz, hget, List.filterMap_cons]
    cases hf : file (refptrs.getD z.entity_refptr 0) with
    | error e => rw [hf] at hzok; simp [Except.isOk, Except.toBool] at hzok
    | ok ent =>
      cases ent with
      | mapZone mz => simp [ihr]
      | other tag => simp [ihr]

/-- Concrete instantiation of `mapzone_filter_of_ok`: the `MapZone`
payload is kept, the other variant is skipped, the map is produced. -/
theorem mapzone_filter_witness :
    processZones [10, 20]
        (fun a => if a = 10 then Except.ok (GeoEntity.mapZone ⟨5⟩)
                  else Except.ok (GeoEntity.other 2))
        [⟨0⟩, ⟨1⟩] = some [⟨5⟩] := by
  have h := mapzone_filter_of_ok [10, 20]
      (fun a => if a = 10 then Except.ok (GeoEntity.mapZone ⟨5⟩)
                else Except.ok (GeoEntity.other 2))
      [⟨0⟩, ⟨1⟩]
      (by intro z hz; fin_cases hz <;> decide)
      (by intro z hz; fin_cases hz <;> decide)
  simpa using h

/-! ### Vertex decoding, from `edb/entities.rs` (`execute_command`)

Per vertex the extractor matches on `header.version`: for `252 | 250 |
240` it reads `(EXVector3, u32, EXVector2)` (six 32-bit words) and
pushes `(d.0, [0f32, 0f32, 0f32], d.2)`; otherwise it reads
`(EXVector3, EXVector3, EXVector2)` (eight words) verbatim. Words are
carried as raw 32-bit patterns; the zero `f32` has pattern `0`. -/

/-- A decoded vertex triple `(position, normal, uv)` of raw words. -/
structure RawVertex where
  pos : Nat × Nat × Nat
  normal : Nat × Nat × Nat
  uv : Nat × Nat
deriving DecidableEq

/-- Reads one vertex record from a word stream, returning the vertex and
the remaining words, following the version match of the extractor. -/
def readVertex (version : Nat) (ws : List Nat) : RawVertex × List Nat :=
  if version = 252 ∨ version = 250 ∨ version = 240 then
    ({ pos := (ws.getD 0 0, ws.getD 1 0, ws.getD 2 0)
       normal := (0, 0, 0)
       uv := (ws.getD 4 0, ws.getD 5 0) }, ws.drop 6)
  else
    ({ pos := (ws.getD 0 0, ws.getD 1 0, ws.getD 2 0)
       normal := (ws.getD 3 0, ws.getD 4 0, ws.getD 5 0)
       uv := (ws.getD 6 0, ws.getD 7 0) }, ws.drop 8)

/-- C6: for versions 240, 250, 252 a vertex is read as
`(position f32×3, packed_color u32, uv f32×2)` — six words, with the
color word dropped and the normal synthesized as all-zero; for every
other version it is read as `(position f32×3, normal f32×3, uv f32×2)` —
eight words, the normal taken verbatim from the stream. -/
theorem vertex_layout_version_conditional (version : Nat)
    (w0 w1 w2 w3 w4 w5 w6 w7 : Nat) (rest : List Nat) :
    ((version = 240 ∨ version = 250 ∨ version = 252) →
        readVertex version (w0 :: w1 :: w2 :: w3 :: w4 :: w5 :: w6 :: w7 :: rest) =
          ({ pos := (w0, w1, w2), normal := (0, 0, 0), uv := (w4, w5) },
            w6 :: w7 :: rest)) ∧
      ((version ≠ 240 ∧ version ≠ 250 ∧ version ≠ 252) →
        readVertex version (w0 :: w1 :: w2 :: w3 :: w4 :: w5 :: w6 :: w7 :: rest) =
          ({ pos := (w0, w1, w2), normal := (w3, w4, w5), uv := (w6, w7) },
            rest)) := by
  constructor
  · intro hv
    have hcond : version = 252 ∨ version = 250 ∨ version = 240 := by tauto
    simp [readVertex, hcond]
  · intro hv
    have hcond : ¬(version = 252 ∨ version = 250 ∨ version = 240) := by tauto
    simp [readVertex, hcond]

/-- Concrete instantiation of `vertex_layout_version_conditional` at
versions 240 (zeroed normal) and 253 (verbatim normal). -/
theorem vertex_layout_witness :
    (readVertex 240 [1, 2, 3, 4, 5, 6, 7, 8]).1.normal = (0, 0, 0) ∧
      (readVertex 253 [1, 2, 3, 4, 5, 6, 7, 8]).1.normal = (4, 5, 6) := by
  constructor
  · have h := (vertex_layout_version_conditional 240 1 2 3 4 5 6 7 8 []).1
      (Or.inl rfl)
    rw [h]
  · have h := (vertex_layout_version_conditional 253 1 2 3 4 5 6 7 8 []).2
      (by norm_num)
    rw [h]

/-! ### Tristrip expansion, from `edb/entities.rs` (`execute_command`)

The strip loop keeps a per-child `index_offset_local`; strips with
`tricount < 2` are skipped by `continue` (which also skips the
`index_offset_local += tricount` advance); otherwise for `i` in
`[0, tricount)` a triangle over `indices[k] + index_offset` at
`k = index_offset_local + i` is emitted, natural winding for even `i`
and reversed for odd `i`. -/

/-- The triangles emitted for one strip: `off` is the global vertex
offset `index_offset`, `k0` the strip's `index_offset_local` base. -/
def emitStrip (I : List Nat) (off k0 tc : Nat) : List (Nat × Nat × Nat) :=
  (List.range tc).map fun i =>
    if i % 2 = 0 then
      (off + I.getD (k0 + i) 0, off + I.getD (k0 + i + 1) 0,
        off + I.getD (k0 + i + 2) 0)
    else
      (off + I.getD (k0 + i + 2) 0, off + I.getD (k0 + i + 1) 0,
        off + I.getD (k0 + i) 0)

/-- The strip loop over the strips' `tricount`s, threading
`index_offset_local`. -/
def expandChildGo (I : List Nat) (off : Nat) : Nat → List Nat → List (Nat × Nat × Nat)
  | _, [] => []
  | k0, tc :: rest =>
    if tc < 2 then expandChildGo I off k0 rest
    else emitStrip I off k0 tc ++ expandChildGo I off (k0 + tc) rest

/-- Tristrip expansion for one child: `index_offset_local` starts at 0. -/
def expandChild (I : List Nat) (off : Nat) (tcs : List Nat) : List (Nat × Nat × Nat) :=
  expandChildGo I off 0 tcs

/-- C2: strips with `tri_count < 2` are skipped entirely (no triangles,
no advance of `index_offset_local`); otherwise the strip contributes,
for each `i < tri_count` at `k = index_offset_local + i`, the triangle
`(I[k], I[k+1], I[k+2])` for even `i` and `(I[k+2], I[k+1], I[k])` for
odd `i` (offset by the global vertex offset), after which
`index_offset_local` advances by `tri_count`; in particular a strip over
indices `[a, b, c, d, e]` with `tri_count = 3` yields exactly
`(a, b, c), (d, c, b), (c, d, e)`. -/
theorem expand_tristrips_spec :
    (∀ (I : List Nat) (off k0 tc : Nat) (rest : List Nat), tc < 2 →
        expandChildGo I off k0 (tc :: rest) = expandChildGo I off k0 rest) ∧
      (∀ (I : List Nat) (off k0 tc : Nat) (rest : List Nat), 2 ≤ tc →
        expandChildGo I off k0 (tc :: rest) =
          emitStrip I off k0 tc ++ expandChildGo I off (k0 + tc) rest) ∧
      (∀ (I : List Nat) (off k0 tc i : Nat) (hi : i < tc)
          (hb : k0 + i + 2 < I.length),
        (emitStrip I off k0 tc).getD i (0, 0, 0) =
          if i % 2 = 0 then
            (off + I.get ⟨k0 + i, by omega⟩, off + I.get ⟨k0 + i + 1, by omega⟩,
              off + I.get ⟨k0 + i + 2, by omega⟩)
          else
            (off + I.get ⟨k0 + i + 2, by omega⟩, off + I.get ⟨k0 + i + 1, by omega⟩,
              off + I.get ⟨k0 + i, by omega⟩)) ∧
      ∀ a b c d e : Nat,
        expandChild [a, b, c, d, e] 0 [3] = [(a, b, c), (d, c, b), (c, d, e)] := by
  refine ⟨?_, ?_, ?_, ?_⟩
  · intro I off k0 tc rest h
    simp [expandChildGo, h]
  · intro I off k0 tc rest h
    have h2 : ¬tc < 2 := by omega
    simp [expandChildGo, h2]
  · intro I off k0 tc i hi hb
    have hlen : i < (emitStrip I off k0 tc).length := by
      simp [emitStrip, hi]
    rw [List.getD_eq_getElem _ _ hlen]
    simp only [emitStrip, List.getElem_map, List.getElem_range]
    rw [List.getD_eq_getElem I 0 (show k0 + i < I.length by omega),
      List.getD_eq_getElem I 0 (show k0 + i + 1 < I.length by omega),
      List.getD_eq_getElem I 0 (show k0 + i + 2 < I.length by omega)]
    simp [List.get_eq_getElem]
  · intro a b c d e
    show expandChildGo [a, b, c, d, e] 0 0 [3] = _
    have h3 : ¬(3 : Nat) < 2 := by omega
    simp only [expandChildGo, if_neg h3]
    simp [emitStrip, List.range_succ]

/-- Concrete instantiation of `expand_tristrips_spec`: the second
triangle of a `tri_count = 3` strip is reversed, and a `tri_count = 1`
strip is skipped. -/
theorem expand_tristrips_witness :
    (emitStrip [10, 20, 30, 40, 50] 0 0 3).getD 1 (0, 0, 0) = (40, 30, 20) ∧
      expandChildGo [10, 20, 30, 40, 50] 0 0 [1] = [] := by
  constructor
  · have h := expand_tristrips_spec.2.2.1 [10, 20, 30, 40, 50] 0 0 3 1
      (by decide) (by decide)
    simpa using h
  · have h := expand_tristrips_spec.1 [10, 20, 30, 40, 50] 0 0 1 []
      (by decide)
    simpa using h

/-! ### Whole-mesh assembly, from `edb/entities.rs` (`execute_command`)

Across the children of a (possibly split) entity, `vertex_data`
accumulates all children's vertices, `faces` accumulates the expanded
triangles with each child's raw `u16` indices offset by `index_offset`,
and `index_offset` is set to `vertex_data.len()` after each child. -/

/-- One child `normal_entity` after its per-child reads: the decoded
vertices, the raw `u16` index buffer, and the `(tricount, texture)`
tristrip descriptors. -/
structure EntityChild where
  vertices : List RawVertex
  indices : List Nat
  tristrips : List (Nat × Int)
deriving DecidableEq

/-- The accumulator loop over children: `vd` is `vertex_data`, `fs` is
`faces`, `off` is `index_offset`. -/
def assembleGo :
    List EntityChild → List RawVertex → List (Nat × Nat × Nat) → Nat →
      List RawVertex × List (Nat × Nat × Nat)
  | [], vd, fs, _ => (vd, fs)
  | c :: rest, vd, fs, off =>
    assembleGo rest (vd ++ c.vertices)
      (fs ++ expandChild c.indices off (c.tristrips.map Prod.fst))
      (vd ++ c.vertices).length

/-- Mesh assembly for an entity's child list, starting from empty
buffers and `index_offset = 0`. -/
def assembleEntity (cs : List EntityChild) :
    List RawVertex × List (Nat × Nat × Nat) :=
  assembleGo cs [] [] 0

/-- The strip ranges referenced by the strip loop stay inside the
child's index buffer (`tricount < 2` strips reference nothing). -/
def stripsInBounds (I : List Nat) : Nat → List Nat → Prop
  | _, [] => True
  | k0, tc :: rest =>
    if tc < 2 then stripsInBounds I k0 rest
    else k0 + tc + 2 ≤ I.length ∧ stripsInBounds I (k0 + tc) rest

theorem expandChildGo_lt (I : List Nat) (V off : Nat)
    (hIV : ∀ x ∈ I, x < V) :
    ∀ (tcs : List Nat) (k0 : Nat), stripsInBounds I k0 tcs →
      ∀ f ∈ expandChildGo I off k0 tcs,
        f.1 < off + V ∧ f.2.1 < off + V ∧ f.2.2 < off + V := by
  intro tcs
  induction tcs with
  | nil => intro k0 _ f hf; simp [expandChildGo] at hf
  | cons tc rest ih =>
    intro k0 hb f hf
    by_cases h2 : tc < 2
    · rw [expandChildGo, if_pos h2] at hf
      rw [stripsInBounds, if_pos h2] at hb
      exact ih k0 hb f hf
    · rw [expandChildGo, if_neg h2] at hf
      rw [stripsInBounds, if_neg h2] at hb
      rcases List.mem_append.mp hf with hf | hf
      · simp only [emitStrip, List.mem_map, List.mem_range] at hf
        obtain ⟨i, hi, hfe⟩ := hf
        have hk : k0 + i + 2 < I.length := by omega
        have g0 : I.getD (k0 + i) 0 < V := by
          rw [List.getD_eq_getElem I 0 (by omega)]
          exact hIV _ (List.getElem_mem _)
        have g1 : I.getD (k0 + i + 1) 0 < V := by
          rw [List.getD_eq_getElem I 0 (by omega)]
          exact hIV _ (List.getElem_mem _)
        have g2 : I.getD (k0 + i + 2) 0 < V := by
          rw [List.getD_eq_getElem I 0 (by omega)]
          exact hIV _ (List.getElem_mem _)
        subst hfe
        split <;> dsimp only <;> exact ⟨by omega, by omega, by omega⟩
      · exact ih (k0 + tc) hb.2 f hf

theorem assembleGo_fst_length_le :
    ∀ (cs : List EntityChild) (vd : List RawVertex)
      (fs : List (Nat × Nat × Nat)) (off : Nat),
      vd.length ≤ (assembleGo cs vd fs off).1.length := by
  intro cs
  induction cs with
  | nil => intro vd fs off; simp [assembleGo]
  | cons c rest ih =>
    intro vd fs off
    rw [assembleGo]
    calc vd.length ≤ (vd ++ c.vertices).length := by simp
      _ ≤ _ := ih _ _ _

theorem assembleGo_lt :
    ∀ (cs : List EntityChild) (vd : List RawVertex)
      (fs : List (Nat × Nat × Nat)),
      (∀ c ∈ cs, (∀ x ∈ c.indices, x < c.vertices.length) ∧
        stripsInBounds c.indices 0 (c.tristrips.map Prod.fst)) →
      (∀ f ∈ fs, f.1 < vd.length ∧ f.2.1 < vd.length ∧ f.2.2 < vd.length) →
      ∀ f ∈ (assembleGo cs vd fs vd.length).2,
        f.1 < (assembleGo cs vd fs vd.length).1.length ∧
        f.2.1 < (assembleGo cs vd fs vd.length).1.length ∧
        f.2.2 < (assembleGo cs vd fs vd.length).1.length := by
  intro cs
  induction cs with
  | nil =>
    intro vd fs _ hfs f hf
    exact hfs f hf
  | cons c rest ih =>
    intro vd fs hcs hfs
    rw [assembleGo]
    obtain ⟨hcI, hcS⟩ := hcs c (List.mem_cons_self c rest)
    have hnew : ∀ f ∈ fs ++ expandChild c.indices vd.length (c.tristrips.map Prod.fst),
        f.1 < (vd ++ c.vertices).length ∧ f.2.1 < (vd ++ c.vertices).length ∧
          f.2.2 < (vd ++ c.vertices).length := by
      intro f hf
      rcases List.mem_append.mp hf with hf | hf
      · have := hfs f hf
        simp only [List.length_append]
        exact ⟨by omega, by omega, by omega⟩
      · have := expandChildGo_lt c.indices c.vertices.length vd.length hcI
          (c.tristrips.map Prod.fst) 0 hcS f hf
        simp only [List.length_append]
        exact this
    exact ih (vd ++ c.vertices) _
      (fun c' hc' => hcs c' (List.mem_cons_of_mem _ hc')) hnew

/-- A single child whose index buffer mentions vertex 3 while only one
vertex was decoded. -/
def outOfRangeChild : EntityChild :=
  { vertices := [{ pos := (0, 0, 0), normal := (0, 0, 0), uv := (0, 0) }]
    indices := [0, 1, 2, 3]
    tristrips := [(2, 0)] }

/-- Counterexample to C3: the assembler performs no bounds check, so a
child whose raw `u16` index buffer references a vertex past its vertex
count yields a mesh whose index list is not bounded by the vertex count:
here the face `(3, 2, 1)` is emitted over a single-vertex mesh. -/
theorem mesh_index_range_counterexample :
    ¬ ∀ f ∈ (assembleEntity [outOfRangeChild]).2,
        f.1 < (assembleEntity [outOfRangeChild]).1.length ∧
        f.2.1 < (assembleEntity [outOfRangeChild]).1.length ∧
        f.2.2 < (assembleEntity [outOfRangeChild]).1.length := by
  intro h
  have hm := h (3, 2, 1) (by decide)
  exact absurd hm.1 (by decide)

/-- C3 amended: every value in the flat triangle index list is strictly
less than the total vertex count, provided each child's raw index-buffer
entries are below that child's vertex count and each kept strip's index
range lies inside the child's index buffer (both hold for well-formed
files but are not checked by the code). -/
theorem mesh_index_range_of_bounds (cs : List EntityChild)
    (hcs : ∀ c ∈ cs, (∀ x ∈ c.indices, x < c.vertices.length) ∧
      stripsInBounds c.indices 0 (c.tristrips.map Prod.fst)) :
    ∀ f ∈ (assembleEntity cs).2,
      f.1 < (assembleEntity cs).1.length ∧
      f.2.1 < (assembleEntity cs).1.length ∧
      f.2.2 < (assembleEntity cs).1.length := by
  have h := assembleGo_lt cs [] [] hcs (by simp)
  exact h

/-- A two-child split entity whose buffers are all in range. -/
def splitChildA : EntityChild :=
  { vertices :=
      [{ pos := (1, 0, 0), normal := (0, 0, 0), uv := (0, 0) },
        { pos := (2, 0, 0), normal := (0, 0, 0), uv := (0, 0) },
        { pos := (3, 0, 0), normal := (0, 0, 0), uv := (0, 0) }]
    indices := [0, 1, 2, 0]
    tristrips := [(2, 0)] }

/-- Second child of the in-range split entity. -/
def splitChildB : EntityChild :=
  { vertices :=
      [{ pos := (4, 0, 0), normal := (0, 0, 0), uv := (0, 0) },
        { pos := (5, 0, 0), normal := (0, 0, 0), uv := (0, 0) },
        { pos := (6, 0, 0), normal := (0, 0, 0), uv := (0, 0) }]
    indices := [0, 1, 2]
    tristrips := [(1, 0)] }

/-- Concrete instantiation of `mesh_index_range_of_bounds` on a
two-child split entity. -/
theorem mesh_index_range_witness :
    (assembleEntity [splitChildA, splitChildB]).1.length = 6 ∧
      ∀ f ∈ (assembleEntity [splitChildA, splitChildB]).2,
        f.1 < (assembleEntity [splitChildA, splitChildB]).1.length ∧
        f.2.1 < (assembleEntity [splitChildA, splitChildB]).1.length ∧
        f.2.2 < (assembleEntity [splitChildA, splitChildB]).1.length := by
  constructor
  · decide
  · exact mesh_index_range_of_bounds [splitChildA, splitChildB]
      (by
        intro c hc
        rcases List.mem_cons.mp hc with h | h
        · subst h
          exact ⟨by decide, by simp [splitChildA, stripsInBounds]⟩
        · rcases List.mem_cons.mp h with h | h
          · subst h
            exact ⟨by decide, by simp [splitChildB, stripsInBounds]⟩
          · simp at h)

/-! ### Strip ordering, from `render/entity.rs` (`load_mesh`)

`load_mesh` clones the mesh's strips and sorts them with
`sort_by(|a, b| a.transparency.cmp(&b.transparency))` — Rust's
slice sort is stable, so this is the unique stable ascending sort by
the `transparency` byte, modelled here by insertion sort (every stable
sort by a total key preorder computes the same list). -/

/-- `TriStrip` as handed to the renderer. -/
structure TriStrip where
  tri_count : Nat
  start_index : Int
  texture_index : Int
  transparency : Nat
  flags : Nat
deriving DecidableEq

/-- The comparator of `load_mesh`: ascending `transparency`. -/
def stripLE (a b : TriStrip) : Prop := a.transparency ≤ b.transparency

instance : DecidableRel stripLE := fun a b => Nat.decLe a.transparency b.transparency

/-- The strip sequence `strips_sorted` built by `load_mesh`. -/
def loadMeshStrips (strips : List TriStrip) : List TriStrip :=
  List.insertionSort stripLE strips

theorem filter_orderedInsert_eq (t : Nat) (x : TriStrip)
    (hx : x.transparency = t) :
    ∀ l : List TriStrip,
      (List.orderedInsert stripLE x l).filter (fun s => s.transparency == t) =
        x :: l.filter (fun s => s.transparency == t) := by
  intro l
  induction l with
  | nil => simp [List.orderedInsert, List.filter, hx]
  | cons y ys ih =>
    rw [List.orderedInsert]
    by_cases hle : stripLE x y
    · rw [if_pos hle]
      simp [List.filter_cons, hx]
    · rw [if_neg hle]
      have hyt : y.transparency ≠ t := by
        intro hyt
        exact hle (by simp [stripLE, hyt, hx])
      simp [List.filter_cons, hyt, ih]

theorem filter_orderedInsert_ne (t : Nat) (x : TriStrip)
    (hx : x.transparency ≠ t) :
    ∀ l : List TriStrip,
      (List.orderedInsert stripLE x l).filter (fun s => s.transparency == t) =
        l.filter (fun s => s.transparency == t) := by
  intro l
  induction l with
  | nil => simp [List.orderedInsert, List.filter_cons, hx]
  | cons y ys ih =>
    rw [List.orderedInsert]
    by_cases hle : stripLE x y
    · rw [if_pos hle]
      simp [List.filter_cons, hx]
    · rw [if_neg hle]
      simp [List.filter_cons, ih]

theorem filter_loadMeshStrips (t : Nat) :
    ∀ l : List TriStrip,
      (loadMeshStrips l).filter (fun s => s.transparency == t) =
        l.filter (fun s => s.transparency == t) := by
  intro l
  induction l with
  | nil => rfl
  | cons x xs ih =>
    simp only [loadMeshStrips, List.insertionSort]
    simp only [loadMeshStrips] at ih
    by_cases hx : x.transparency = t
    · rw [filter_orderedInsert_eq t x hx (List.insertionSort stripLE xs), ih,
        List.filter_cons]
      simp [hx]
    · rw [filter_orderedInsert_ne t x hx (List.insertionSort stripLE xs), ih,
        List.filter_cons]
      simp [hx]

instance : IsTotal TriStrip stripLE :=
  ⟨fun a b => Nat.le_total a.transparency b.transparency⟩

instance : IsTrans TriStrip stripLE :=
  ⟨fun _ _ _ hab hbc => Nat.le_trans hab hbc⟩

/-- C8: the strip sequence handed to the renderer is non-decreasing in
`transparency`, is a permutation of the input, and the sort is stable:
for every transparency value the subsequence with that value equals the
input's subsequence with that value (so equal-transparency strips retain
input order); in particular input transparencies `[1, 0, 2]` become
`[0, 1, 2]`, and two equal-transparency strips keep their order. -/
theorem strips_sorted_stable :
    (∀ strips : List TriStrip,
        List.Pairwise (fun a b => a.transparency ≤ b.transparency)
          (loadMeshStrips strips)) ∧
      (∀ strips : List TriStrip, List.Perm (loadMeshStrips strips) strips) ∧
      (∀ strips : List TriStrip, ∀ t : Nat,
        (loadMeshStrips strips).filter (fun s => s.transparency == t) =
          strips.filter (fun s => s.transparency == t)) ∧
      (loadMeshStrips [⟨0, 0, 0, 1, 0⟩, ⟨0, 0, 0, 0, 0⟩, ⟨0, 0, 0, 2, 0⟩]).map
          (fun s => s.transparency) = [0, 1, 2] ∧
      loadMeshStrips [⟨1, 0, 0, 5, 0⟩, ⟨2, 0, 0, 5, 0⟩] =
        [⟨1, 0, 0, 5, 0⟩, ⟨2, 0, 0, 5, 0⟩] := by
  refine ⟨?_, ?_, ?_, ?_, ?_⟩
  · intro strips
    exact List.sorted_insertionSort stripLE strips
  · intro strips
    exact List.perm_insertionSort stripLE strips
  · intro strips t
    exact filter_loadMeshStrips t strips
  · decide
  · decide

/-! ### Trigger back-edges, from `maps.rs` (`read_from_file`)

The double loop over `0..map.triggers.len()` pushes `ei as i32` onto
`triggers[i].incoming_links` whenever `ei ≠ i` and `triggers[ei].links`
contains `i as i32`. All triggers enter the loop with empty
`incoming_links` (they were just assembled with `incoming_links: vec![]`).
Index casts `as i32` are modelled by `toI32`. -/

/-- The `usize as i32` cast: reduce modulo `2^32`, interpret as
two's-complement. -/
def toI32 (n : Nat) : Int :=
  if n % 2 ^ 32 < 2 ^ 31 then ((n % 2 ^ 32 : Nat) : Int)
  else ((n % 2 ^ 32 : Nat) : Int) - 2 ^ 32

theorem toI32_of_lt {n : Nat} (h : n < 2 ^ 31) : toI32 n = (n : Int) := by
  have h32 : n < 2 ^ 32 := lt_trans h (by norm_num)
  unfold toI32
  rw [Nat.mod_eq_of_lt h32, if_pos h]

/-- The inner loop for trigger `i`: scan `ei` over all trigger indices
in ascending order, skip `ei = i`, and keep `ei as i32` when
`triggers[ei].links` contains `i as i32`. -/
def incomingFor (ts : List ProcessedTrigger) (i : Nat) : List Int :=
  (List.range ts.length).filterMap fun ei =>
    if i = ei then none
    else if toI32 i ∈ (ts.getD ei default).links then some (toI32 ei) else none

/-- The back-edge pass of `read_from_file`: each trigger's
`incoming_links` receives the pushes of the inner loop (appended, since
`links` is never mutated the scan is order-independent). -/
def computeIncomingLinks (ts : List ProcessedTrigger) : List ProcessedTrigger :=
  ts.mapIdx fun i t => { t with incoming_links := t.incoming_links ++ incomingFor ts i }

theorem computeIncomingLinks_getD (ts : List ProcessedTrigger) (i : Nat)
    (hi : i < ts.length) (h0 : ∀ t ∈ ts, t.incoming_links = []) :
    ((computeIncomingLinks ts).getD i default).incoming_links = incomingFor ts i := by
  have hlen : i < (computeIncomingLinks ts).length := by
    simpa [computeIncomingLinks] using hi
  rw [List.getD_eq_getElem _ _ hlen]
  simp only [computeIncomingLinks, List.getElem_mapIdx]
  have : (ts[i]).incoming_links = [] := h0 _ (List.getElem_mem hi)
  simp [this]

/-- C1: over the triggers of a decoded map (all entering the back-edge
pass with empty `incoming_links`, their count representable in `i32`),
`j` is in `triggers[i].incoming_links` iff `i ≠ j` and `i` (as `i32`) is
in `triggers[j].links`: `incoming_links` is the exact inverse of `links`. -/
theorem incoming_links_iff (ts : List ProcessedTrigger)
    (h0 : ∀ t ∈ ts, t.incoming_links = []) (hn : ts.length ≤ 2 ^ 31)
    (i j : Nat) (hi : i < ts.length) (hj : j < ts.length) :
    toI32 j ∈ ((computeIncomingLinks ts).getD i default).incoming_links ↔
      (i ≠ j ∧ toI32 i ∈ (ts.getD j default).links) := by
  rw [computeIncomingLinks_getD ts i hi h0]
  simp only [incomingFor, List.mem_filterMap, List.mem_range]
  constructor
  · rintro ⟨ei, hei, hfe⟩
    by_cases hie : i = ei
    · rw [if_pos hie] at hfe
      exact absurd hfe (by simp)
    · rw [if_neg hie] at hfe
      by_cases hmem : toI32 i ∈ (ts.getD ei default).links
      · rw [if_pos hmem] at hfe
        have heq : toI32 ei = toI32 j := by
          injection hfe
        have hei31 : ei < 2 ^ 31 := lt_of_lt_of_le hei hn
        have hj31 : j < 2 ^ 31 := lt_of_lt_of_le hj hn
        rw [toI32_of_lt hei31, toI32_of_lt hj31] at heq
        have : ei = j := by exact_mod_cast heq
        subst this
        exact ⟨hie, hmem⟩
      · rw [if_neg hmem] at hfe
        exact absurd hfe (by simp)
  · rintro ⟨hij, hmem⟩
    exact ⟨j, hj, by rw [if_neg hij, if_pos hmem]⟩

/-- Concrete instantiation of `incoming_links_iff` (the map with links
`[[1, 2], [], [0]]`): trigger 2 is an incoming link of trigger 0. -/
theorem incoming_links_iff_witness :
    toI32 2 ∈
      ((computeIncomingLinks
            [{ (default : ProcessedTrigger) with links := [1, 2] },
              { (default : ProcessedTrigger) with links := [] },
              { (default : ProcessedTrigger) with links := [0] }]).getD
          0 default).incoming_links := by
  exact (incoming_links_iff
      [{ (default : ProcessedTrigger) with links := [1, 2] },
        { (default : ProcessedTrigger) with links := [] },
        { (default : ProcessedTrigger) with links := [0] }]
      (by decide) (by norm_num) 0 2 (by norm_num) (by norm_num)).mpr
    ⟨by norm_num, by rw [toI32_of_lt (by norm_num)]; decide⟩

/-- C9: each trigger's `incoming_links` list is strictly increasing
(hence duplicate-free): the inner loop scans source indices in ascending
order and appends each at most once, however often `links` mentions `i`. -/
theorem incoming_links_strict_incr (ts : List ProcessedTrigger)
    (h0 : ∀ t ∈ ts, t.incoming_links = []) (hn : ts.length ≤ 2 ^ 31)
    (i : Nat) (hi : i < ts.length) :
    List.Pairwise (fun a b : Int => a < b)
      ((computeIncomingLinks ts).getD i default).incoming_links := by
  rw [computeIncomingLinks_getD ts i hi h0]
  rw [incomingFor]
  rw [List.pairwise_filterMap]
  have hbase := (List.Pairwise.and_mem).mp (List.pairwise_lt_range ts.length)
  refine hbase.imp ?_
  rintro a b ⟨ha, hb, hab⟩ x hx y hy
  have ha31 : a < 2 ^ 31 := lt_of_lt_of_le (List.mem_range.mp ha) hn
  have hb31 : b < 2 ^ 31 := lt_of_lt_of_le (List.mem_range.mp hb) hn
  have hxa : x = toI32 a := by
    by_cases h1 : i = a
    · rw [if_pos h1] at hx; exact absurd hx (by simp)
    · rw [if_neg h1] at hx
      by_cases h2 : toI32 i ∈ (ts.getD a default).links
      · rw [if_pos h2] at hx; exact (Option.some_inj.mp hx).symm
      · rw [if_neg h2] at hx; exact absurd hx (by simp)
  have hyb : y = toI32 b := by
    by_cases h1 : i = b
    · rw [if_pos h1] at hy; exact absurd hy (by simp)
    · rw [if_neg h1] at hy
      by_cases h2 : toI32 i ∈ (ts.getD b default).links
      · rw [if_pos h2] at hy; exact (Option.some_inj.mp hy).symm
      · rw [if_neg h2] at hy; exact absurd hy (by simp)
  rw [hxa, hyb, toI32_of_lt ha31, toI32_of_lt hb31]
  exact_mod_cast hab

/-- Concrete instantiation of `incoming_links_strict_incr`: with links
`[[1], [0], [0]]`, trigger 0's incoming links `[1, 2]` are strictly
increasing. -/
theorem incoming_links_strict_incr_witness :
    List.Pairwise (fun a b : Int => a < b)
      ((computeIncomingLinks
            [{ (default : ProcessedTrigger) with links := [1] },
              { (default : ProcessedTrigger) with links := [0] },
              { (default : ProcessedTrigger) with links := [0] }]).getD
          0 default).incoming_links := by
  exact incoming_links_strict_incr
    [{ (default : ProcessedTrigger) with links := [1] },
      { (default : ProcessedTrigger) with links := [0] },
      { (default : ProcessedTrigger) with links := [0] }]
    (by decide) (by norm_num) 0 (by norm_num)

end Eurochef
